import Mathlib

/-!
Shallow embedding of the 2584-framework agents (src/agent.h) and the parts of
the board/action/weight interface they use.  C++ `float` arithmetic is embedded
as exact rational arithmetic (`ℚ`); machine integers are `Int`/`Nat` (no value
in this development approaches an overflow boundary).  Out-of-bounds accesses
to the weight tables (`std::vector` indexing, undefined behaviour in the
source) are modelled by `Option`: a computation returns `none` exactly when it
performs an access outside a table.
-/

set_option autoImplicit false

namespace TCG

/-- A board is the flat list of 16 tile indices (row major); 0 = empty.
`board.h` stores exactly 16 cells; reads use `bcell`. -/
abbrev Board := List Nat

/-- Cell accessor `board::operator()(i)`: the tile index at position `i`
(reads outside the list default to 0; the source never reads outside 0..15). -/
def bcell : Board → Nat → Nat
  | [], _ => 0
  | x :: _, 0 => x
  | _ :: xs, n + 1 => bcell xs n

/-- A weight table (`weight.h`, not under src/): a dense table of `size`
rational entries; `val` gives the entry at each in-range index. -/
structure Weight where
  size : Nat
  val : Nat → ℚ

/-- The player's table vector `std::vector<weight> net`. -/
abbrev Net := List Weight

/-- Read `w[idx]`; `none` models the out-of-bounds access. -/
def wread (w : Weight) (idx : Nat) : Option ℚ :=
  if idx < w.size then some (w.val idx) else none

/-- Write `w[idx] = x`; `none` models the out-of-bounds access. -/
def wwrite (w : Weight) (idx : Nat) (x : ℚ) : Option Weight :=
  if idx < w.size then
    some ⟨w.size, fun j => if j = idx then x else w.val j⟩
  else none

/-- Read `net[i][idx]`. -/
def nread (net : Net) (i idx : Nat) : Option ℚ := do
  let w ← net.get? i
  wread w idx

/-- The compound assignment `net[i][idx] += d` of `player::adjust_value`. -/
def nadd (net : Net) (i idx : Nat) (d : ℚ) : Option Net := do
  let w ← net.get? i
  let v ← wread w idx
  let w' ← wwrite w idx (v + d)
  pure (net.set i w')

/-- `player::extract_feature(after, a, b, c, d)` (src/agent.h lines 146-148). -/
def extract_feature (after : Board) (a b c d : Nat) : Nat :=
  bcell after a * (25 * 25 * 25) + bcell after b * (25 * 25) +
    bcell after c * 25 + bcell after d

/-- `player::estimate_value(after)` (src/agent.h lines 149-160): the sum of the
eight table lookups, one per fixed 4-cell pattern. -/
def estimate_value (net : Net) (after : Board) : Option ℚ := do
  let v0 ← nread net 0 (extract_feature after 0 1 2 3)
  let v1 ← nread net 1 (extract_feature after 4 5 6 7)
  let v2 ← nread net 2 (extract_feature after 8 9 10 11)
  let v3 ← nread net 3 (extract_feature after 12 13 14 15)
  let v4 ← nread net 4 (extract_feature after 0 4 8 12)
  let v5 ← nread net 5 (extract_feature after 1 5 9 13)
  let v6 ← nread net 6 (extract_feature after 2 6 10 14)
  let v7 ← nread net 7 (extract_feature after 3 7 11 15)
  pure (v0 + v1 + v2 + v3 + v4 + v5 + v6 + v7)

/-- `player::adjust_value(after, target)` (src/agent.h lines 131-144): one TD
update step, adding the same scalar to all eight tables. -/
def adjust_value (alpha : ℚ) (net : Net) (after : Board) (target : ℚ) :
    Option Net := do
  let current ← estimate_value net after
  let error := target - current
  let adjust := alpha * error
  let n0 ← nadd net 0 (extract_feature after 0 1 2 3) adjust
  let n1 ← nadd n0 1 (extract_feature after 4 5 6 7) adjust
  let n2 ← nadd n1 2 (extract_feature after 8 9 10 11) adjust
  let n3 ← nadd n2 3 (extract_feature after 12 13 14 15) adjust
  let n4 ← nadd n3 4 (extract_feature after 0 4 8 12) adjust
  let n5 ← nadd n4 5 (extract_feature after 1 5 9 13) adjust
  let n6 ← nadd n5 6 (extract_feature after 2 6 10 14) adjust
  let n7 ← nadd n6 7 (extract_feature after 3 7 11 15) adjust
  pure n7

/-- Modelled from the spec: `weight.h` is not under src/; per section 3 a
freshly constructed table of length `len` is zero-initialized.  The eight
`emplace_back(25 * 25 * 25 * 25)` calls are `player::init_weights`
(src/agent.h lines 162-171). -/
def init_weights : Net :=
  [⟨25 * 25 * 25 * 25, fun _ => 0⟩, ⟨25 * 25 * 25 * 25, fun _ => 0⟩,
   ⟨25 * 25 * 25 * 25, fun _ => 0⟩, ⟨25 * 25 * 25 * 25, fun _ => 0⟩,
   ⟨25 * 25 * 25 * 25, fun _ => 0⟩, ⟨25 * 25 * 25 * 25, fun _ => 0⟩,
   ⟨25 * 25 * 25 * 25, fun _ => 0⟩, ⟨25 * 25 * 25 * 25, fun _ => 0⟩]

/-- Net initialization performed by the `player` constructor (src/agent.h lines
75-82): with an `init` key the eight tables are allocated, with neither `init`
nor `load` the vector stays empty.  The `load` branch reads a file and is not
modelled. -/
def player_ctor_net (hasInit : Bool) : Net :=
  if hasInit then init_weights else []

/-- The well-formed net shape established by `init_weights`: eight tables of
`25 ^ 4` entries each. -/
def WFnet (net : Net) : Prop :=
  net.length = 8 ∧ ∀ w ∈ net, w.size = 25 ^ 4

/-- Every tile index on the board is inside the 25-value range. -/
def boardOK (b : Board) : Prop := ∀ x ∈ b, x < 25

instance (b : Board) : Decidable (boardOK b) :=
  inferInstanceAs (Decidable (∀ x ∈ b, x < 25))

instance (net : Net) : Decidable (WFnet net) :=
  inferInstanceAs (Decidable (net.length = 8 ∧ ∀ w ∈ net, w.size = 25 ^ 4))

/-- The feature index used for table `i` (the four rows then the four
columns), as hard-coded in `estimate_value` and `adjust_value`. -/
def feat (i : Nat) (b : Board) : Nat :=
  match i with
  | 0 => extract_feature b 0 1 2 3
  | 1 => extract_feature b 4 5 6 7
  | 2 => extract_feature b 8 9 10 11
  | 3 => extract_feature b 12 13 14 15
  | 4 => extract_feature b 0 4 8 12
  | 5 => extract_feature b 1 5 9 13
  | 6 => extract_feature b 2 6 10 14
  | _ => extract_feature b 3 7 11 15

/-- The value contributed by table `i` for board `b`. -/
def lookup (net : Net) (i : Nat) (b : Board) : ℚ :=
  (nread net i (feat i b)).getD 0

lemma bcell_lt (b : Board) (hb : boardOK b) (i : Nat) : bcell b i < 25 := by
  induction b generalizing i with
  | nil => simp [bcell]
  | cons x xs ih =>
    cases i with
    | zero => exact hb x (List.mem_cons_self x xs)
    | succ n =>
      exact ih (fun y hy => hb y (List.mem_cons_of_mem x hy)) n

lemma extract_feature_lt (b : Board) (hb : boardOK b) (p q r s : Nat) :
    extract_feature b p q r s < 25 ^ 4 := by
  have h1 := bcell_lt b hb p
  have h2 := bcell_lt b hb q
  have h3 := bcell_lt b hb r
  have h4 := bcell_lt b hb s
  unfold extract_feature
  have e : (25 : Nat) ^ 4 = 390625 := by norm_num
  omega

lemma feat_lt (b : Board) (hb : boardOK b) (i : Nat) : feat i b < 25 ^ 4 := by
  unfold feat
  rcases i with _ | _ | _ | _ | _ | _ | _ | i <;>
    exact extract_feature_lt b hb _ _ _ _

lemma nread_WF (net : Net) (hWF : WFnet net) (i idx : Nat) (hi : i < 8)
    (hidx : idx < 25 ^ 4) : (nread net i idx).isSome := by
  obtain ⟨hlen, hsz⟩ := hWF
  have hi' : i < net.length := by omega
  have hget : net.get? i = some (net.get ⟨i, hi'⟩) := List.get?_eq_get hi'
  have hmem : net.get ⟨i, hi'⟩ ∈ net := List.get_mem net i hi'
  have hwsz : (net.get ⟨i, hi'⟩).size = 25 ^ 4 := hsz _ hmem
  show (Option.bind (net.get? i) fun w => wread w idx).isSome = true
  rw [hget]
  show (wread (net.get ⟨i, hi'⟩) idx).isSome = true
  unfold wread
  rw [hwsz, if_pos hidx]
  rfl

lemma nread_eq_some (net : Net) (i idx : Nat) (h : (nread net i idx).isSome) :
    nread net i idx = some ((nread net i idx).getD 0) := by
  cases hv : nread net i idx with
  | none => rw [hv] at h; simp at h
  | some v => simp [hv]

lemma nread_feat (net : Net) (b : Board) (hWF : WFnet net) (hb : boardOK b)
    (i : Nat) (hi : i < 8) : nread net i (feat i b) = some (lookup net i b) :=
  nread_eq_some net i (feat i b) (nread_WF net hWF i (feat i b) hi (feat_lt b hb i))

lemma estimate_value_eq (net : Net) (b : Board) (hWF : WFnet net)
    (hb : boardOK b) :
    estimate_value net b =
      some (lookup net 0 b + lookup net 1 b + lookup net 2 b + lookup net 3 b +
        lookup net 4 b + lookup net 5 b + lookup net 6 b + lookup net 7 b) := by
  have h0 := nread_feat net b hWF hb 0 (by norm_num)
  have h1 := nread_feat net b hWF hb 1 (by norm_num)
  have h2 := nread_feat net b hWF hb 2 (by norm_num)
  have h3 := nread_feat net b hWF hb 3 (by norm_num)
  have h4 := nread_feat net b hWF hb 4 (by norm_num)
  have h5 := nread_feat net b hWF hb 5 (by norm_num)
  have h6 := nread_feat net b hWF hb 6 (by norm_num)
  have h7 := nread_feat net b hWF hb 7 (by norm_num)
  simp only [feat] at h0 h1 h2 h3 h4 h5 h6 h7
  simp [estimate_value, h0, h1, h2, h3, h4, h5, h6, h7]

lemma net_get?_set_self (l : Net) (i : Nat) (a : Weight) (h : i < l.length) :
    (l.set i a).get? i = some a := by
  rw [List.get?_eq_getElem?]
  simp [List.getElem?_set, h]

lemma net_get?_set_other (l : Net) (i j : Nat) (a : Weight) (h : i ≠ j) :
    (l.set i a).get? j = l.get? j := by
  rw [List.get?_eq_getElem?, List.get?_eq_getElem?]
  simp [List.getElem?_set, h]

lemma nadd_spec (net : Net) (hWF : WFnet net) (i idx : Nat) (d : ℚ)
    (hi : i < 8) (hidx : idx < 25 ^ 4) :
    ∃ net', nadd net i idx d = some net' ∧ WFnet net' ∧
      ∀ i' idx', nread net' i' idx' =
        if i' = i ∧ idx' = idx then (nread net i idx).map (fun v => v + d)
        else nread net i' idx' := by
  obtain ⟨hlen, hsz⟩ := hWF
  have hi' : i < net.length := by omega
  have hget : net.get? i = some (net.get ⟨i, hi'⟩) := List.get?_eq_get hi'
  set w := net.get ⟨i, hi'⟩ with hw
  have hwsz : w.size = 25 ^ 4 := hsz _ (List.get_mem net i hi')
  have hidxw : idx < w.size := by rw [hwsz]; exact hidx
  have hr : wread w idx = some (w.val idx) := by
    unfold wread; rw [if_pos hidxw]
  set w' : Weight := ⟨w.size, fun j => if j = idx then w.val idx + d else w.val j⟩
    with hw'
  have hwr : wwrite w idx (w.val idx + d) = some w' := by
    unfold wwrite; rw [if_pos hidxw]
  have hreadw' : ∀ j, wread w' j =
      if j = idx then (if j < w.size then some (w.val idx + d) else none)
      else wread w j := by
    intro j
    unfold wread
    by_cases hj : j = idx
    · subst hj
      simp only [if_pos rfl]
      rfl
    · simp only [if_neg hj]
  refine ⟨net.set i w', ?_, ?_, ?_⟩
  · show (Option.bind (net.get? i) fun w0 => Option.bind (wread w0 idx)
      fun v => Option.bind (wwrite w0 idx (v + d)) fun w1 => some (net.set i w1)) =
      some (net.set i w')
    rw [hget]
    show (Option.bind (wread w idx)
      fun v => Option.bind (wwrite w idx (v + d)) fun w1 => some (net.set i w1)) = _
    rw [hr]
    show (Option.bind (wwrite w idx (w.val idx + d)) fun w1 => some (net.set i w1)) = _
    rw [hwr]
    rfl
  · constructor
    · rw [List.length_set]; exact hlen
    · intro w2 hw2
      rcases List.mem_or_eq_of_mem_set hw2 with h | h
      · exact hsz _ h
      · rw [h]
        show w.size = 25 ^ 4
        exact hwsz
  · intro i' idx'
    by_cases hii : i' = i
    · subst hii
      have hset : (net.set i' w').get? i' = some w' :=
        net_get?_set_self net i' w' hi'
      unfold nread
      rw [hset, hget]
      show (wread w' idx' : Option ℚ) =
        if i' = i' ∧ idx' = idx then (wread w idx).map (fun v => v + d)
        else wread w idx'
      rw [hreadw']
      by_cases hjj : idx' = idx
      · subst hjj
        rw [if_pos rfl, if_pos hidxw, if_pos ⟨rfl, rfl⟩, hr]
        rfl
      · rw [if_neg hjj, if_neg (by simp [hjj])]
    · have hset : (net.set i w').get? i' = net.get? i' :=
        net_get?_set_other net i i' w' (fun h => hii h.symm)
      unfold nread
      rw [hset, if_neg (by simp [hii])]

/-- The estimated value with the out-of-bounds case defaulted to 0; under
`WFnet` and `boardOK` it is the value `estimate_value` returns. -/
def estD (net : Net) (b : Board) : ℚ := (estimate_value net b).getD 0

lemma estimate_value_some (net : Net) (b : Board) (hWF : WFnet net)
    (hb : boardOK b) : estimate_value net b = some (estD net b) := by
  rw [estD, estimate_value_eq net b hWF hb]
  rfl

lemma adjust_value_chain (alpha : ℚ) (net : Net) (b : Board) (target : ℚ)
    (hWF : WFnet net) (hb : boardOK b) :
    ∃ net', adjust_value alpha net b target = some net' ∧ WFnet net' ∧
      ∀ i, i < 8 →
        (nread net' i (feat i b) = (nread net i (feat i b)).map
          (fun v => v + alpha * (target - estD net b))) ∧
        ∀ idx, idx ≠ feat i b → nread net' i idx = nread net i idx := by
  have hest := estimate_value_some net b hWF hb
  obtain ⟨n0, e0, wf0, r0⟩ := nadd_spec net hWF 0 (feat 0 b)
    (alpha * (target - estD net b)) (by norm_num) (feat_lt b hb 0)
  obtain ⟨n1, e1, wf1, r1⟩ := nadd_spec n0 wf0 1 (feat 1 b)
    (alpha * (target - estD net b)) (by norm_num) (feat_lt b hb 1)
  obtain ⟨n2, e2, wf2, r2⟩ := nadd_spec n1 wf1 2 (feat 2 b)
    (alpha * (target - estD net b)) (by norm_num) (feat_lt b hb 2)
  obtain ⟨n3, e3, wf3, r3⟩ := nadd_spec n2 wf2 3 (feat 3 b)
    (alpha * (target - estD net b)) (by norm_num) (feat_lt b hb 3)
  obtain ⟨n4, e4, wf4, r4⟩ := nadd_spec n3 wf3 4 (feat 4 b)
    (alpha * (target - estD net b)) (by norm_num) (feat_lt b hb 4)
  obtain ⟨n5, e5, wf5, r5⟩ := nadd_spec n4 wf4 5 (feat 5 b)
    (alpha * (target - estD net b)) (by norm_num) (feat_lt b hb 5)
  obtain ⟨n6, e6, wf6, r6⟩ := nadd_spec n5 wf5 6 (feat 6 b)
    (alpha * (target - estD net b)) (by norm_num) (feat_lt b hb 6)
  obtain ⟨n7, e7, wf7, r7⟩ := nadd_spec n6 wf6 7 (feat 7 b)
    (alpha * (target - estD net b)) (by norm_num) (feat_lt b hb 7)
  simp only [feat] at e0 e1 e2 e3 e4 e5 e6 e7
  refine ⟨n7, ?_, wf7, ?_⟩
  · simp only [adjust_value, hest, e0, e1, e2, e3, e4, e5, e6, e7,
      Option.pure_def, Option.bind_eq_bind, Option.some_bind]
  · intro i hi
    interval_cases i <;>
      exact ⟨by simp [r0, r1, r2, r3, r4, r5, r6, r7],
        fun idx hne => by simp [r0, r1, r2, r3, r4, r5, r6, r7, hne]⟩

lemma estimate_after_nadd (net : Net) (b : Board) (i idx : Nat) (d : ℚ)
    (net' : Net) (hWF : WFnet net) (hb : boardOK b) (hi : i < 8)
    (hidx : idx < 25 ^ 4) (hn : nadd net i idx d = some net') :
    estimate_value net' b =
      some (estD net b + (if idx = feat i b then d else 0)) := by
  obtain ⟨net2, e2, wf2, r2⟩ := nadd_spec net hWF i idx d hi hidx
  have hnn : net2 = net' := by
    have := hn.symm.trans e2
    exact (Option.some.inj this).symm
  subst hnn
  have hlk : ∀ j, j < 8 → lookup net2 j b =
      lookup net j b + (if j = i ∧ feat j b = idx then d else 0) := by
    intro j hj
    unfold lookup
    rw [r2 j (feat j b)]
    by_cases hc : j = i ∧ feat j b = idx
    · obtain ⟨hji, hfi⟩ := hc
      subst hji
      rw [if_pos ⟨rfl, hfi⟩, if_pos ⟨rfl, hfi⟩, ← hfi,
        nread_feat net b hWF hb j hj]
      rfl
    · rw [if_neg hc, if_neg hc]
      ring
  rw [estimate_value_eq net2 b wf2 hb,
    hlk 0 (by norm_num), hlk 1 (by norm_num), hlk 2 (by norm_num),
    hlk 3 (by norm_num), hlk 4 (by norm_num), hlk 5 (by norm_num),
    hlk 6 (by norm_num), hlk 7 (by norm_num)]
  have hD : estD net b =
      lookup net 0 b + lookup net 1 b + lookup net 2 b + lookup net 3 b +
        lookup net 4 b + lookup net 5 b + lookup net 6 b + lookup net 7 b := by
    rw [estD, estimate_value_eq net b hWF hb]
    rfl
  rw [hD]
  by_cases hcase : idx = feat i b
  · interval_cases i <;> simp [hcase] <;> ring
  · have hns : feat i b ≠ idx := fun h => hcase h.symm
    interval_cases i <;> simp [hns, hcase]

/-- C4: `adjust_value(state, target)` computes `error = target −
estimate_value(state)` and `delta = alpha × error`, and adds that identical
scalar `delta` to each of the 8 tables at the feature index the state resolves
to under that table's pattern; no other entry of any table changes. -/
theorem player_adjust_value_td_update (alpha : ℚ) (net : Net) (b : Board)
    (target : ℚ) (hWF : WFnet net) (hb : boardOK b) :
    ∃ cur net', estimate_value net b = some cur ∧
      adjust_value alpha net b target = some net' ∧ WFnet net' ∧
      ∀ i, i < 8 →
        (nread net' i (feat i b) = (nread net i (feat i b)).map
          (fun v => v + alpha * (target - cur))) ∧
        ∀ idx, idx ≠ feat i b → nread net' i idx = nread net i idx := by
  obtain ⟨net', hadj, hwf, hr⟩ := adjust_value_chain alpha net b target hWF hb
  exact ⟨estD net b, net', estimate_value_some net b hWF hb, hadj, hwf, hr⟩

/-- C5: `estimate_value(board)` is the exact sum of the 8 table lookups at the
four row patterns and the four column patterns, and adding `d` to the single
table entry a pattern of the board resolves to changes the estimate by exactly
`d`. -/
theorem player_estimate_value_linear (net : Net) (b : Board)
    (hWF : WFnet net) (hb : boardOK b) :
    estimate_value net b = some
      ((nread net 0 (extract_feature b 0 1 2 3)).getD 0 +
       (nread net 1 (extract_feature b 4 5 6 7)).getD 0 +
       (nread net 2 (extract_feature b 8 9 10 11)).getD 0 +
       (nread net 3 (extract_feature b 12 13 14 15)).getD 0 +
       (nread net 4 (extract_feature b 0 4 8 12)).getD 0 +
       (nread net 5 (extract_feature b 1 5 9 13)).getD 0 +
       (nread net 6 (extract_feature b 2 6 10 14)).getD 0 +
       (nread net 7 (extract_feature b 3 7 11 15)).getD 0) ∧
    ∀ i, i < 8 → ∀ idx, idx < 25 ^ 4 → ∀ d : ℚ, ∀ net' : Net,
      nadd net i idx d = some net' → idx = feat i b →
      estimate_value net' b =
        some ((estimate_value net b).getD 0 + d) := by
  constructor
  · exact estimate_value_eq net b hWF hb
  · intro i hi idx hidx d net' hn hfi
    rw [estimate_after_nadd net b i idx d net' hWF hb hi hidx hn,
      if_pos hfi]
    rfl

/-- One episode-history entry, `player::step`: the slide's reward and the
board right after the slide (src/agent.h lines 111-115). -/
structure Step where
  reward : Int
  after : Board
deriving DecidableEq, Repr

/-- Default `Step` used only to give `List.getD` a default; the source never
indexes the history out of range. -/
def dStep : Step := ⟨0, []⟩

/-- The mutable state of a `player` instance: the weight tables, the learning
rate and the episode history (src/agent.h lines 129, 191-192). -/
structure Player where
  net : Net
  alpha : ℚ
  history : List Step

/-- `player::open_episode` (src/agent.h lines 117-119): clear the history. -/
def open_episode (p : Player) : Player := { p with history := [] }

/-- The body of one backward-loop iteration of `player::close_episode`
(src/agent.h lines 124-127): adjust `history[t].after` toward
`history[t+1].reward + estimate_value(history[t+1].after)`. -/
def adjT (alpha : ℚ) (hist : List Step) (t : Nat) (net : Net) : Option Net := do
  let e ← estimate_value net (hist.getD (t + 1) dStep).after
  adjust_value alpha net (hist.getD t dStep).after
    (((hist.getD (t + 1) dStep).reward : ℚ) + e)

/-- The backward `for (int t = history.size()-2; t >= 0; t--)` loop of
`player::close_episode`, processing indices `t, t-1, ..., 0`. -/
def close_loop (alpha : ℚ) (hist : List Step) : Nat → Net → Option Net
  | 0, net => adjT alpha hist 0 net
  | t + 1, net => do
      let net' ← adjT alpha hist (t + 1) net
      close_loop alpha hist t net'

/-- `player::close_episode` (src/agent.h lines 120-128).  With a single-entry
history the C++ loop bound `history.size()-2` converts to `-1` and the loop
body never runs; that case is the `2 ≤ length` guard here. -/
def close_episode (p : Player) : Option Player :=
  if p.history = [] then some p
  else if p.alpha = 0 then some p
  else do
    let net1 ← adjust_value p.alpha p.net
      (p.history.getD (p.history.length - 1) dStep).after 0
    let net2 ← if 2 ≤ p.history.length
      then close_loop p.alpha p.history (p.history.length - 2) net1
      else some net1
    some { p with net := net2 }

/-- Follows the spec's words (section 4.5): update the final recorded state
toward target 0, then walk the history backward from the second-to-last entry
to the first, entry `t` being updated toward
`reward[t+1] + estimate_value(after[t+1])` read from the already-updated
network. -/
def td_update_spec (alpha : ℚ) : Net → List Step → Option Net
  | net, [] => some net
  | net, [s] => adjust_value alpha net s.after 0
  | net, s :: s' :: rest => do
      let net1 ← td_update_spec alpha net (s' :: rest)
      let e ← estimate_value net1 s'.after
      adjust_value alpha net1 s.after ((s'.reward : ℚ) + e)

lemma adjT_cons (alpha : ℚ) (s : Step) (l : List Step) (t : Nat) (net : Net) :
    adjT alpha (s :: l) (t + 1) net = adjT alpha l t net := by
  simp [adjT, List.getD_cons_succ]

lemma close_loop_cons (alpha : ℚ) (s : Step) (l : List Step) (t : Nat)
    (net : Net) :
    close_loop alpha (s :: l) (t + 1) net =
      (close_loop alpha l t net).bind (adjT alpha (s :: l) 0) := by
  induction t generalizing net with
  | zero =>
    show (adjT alpha (s :: l) 1 net).bind (adjT alpha (s :: l) 0) = _
    rw [adjT_cons]
    rfl
  | succ t ih =>
    show (adjT alpha (s :: l) (t + 2) net).bind (close_loop alpha (s :: l) (t + 1)) = _
    rw [adjT_cons]
    have hpt : (fun n => close_loop alpha (s :: l) (t + 1) n) =
        fun n => (close_loop alpha l t n).bind (adjT alpha (s :: l) 0) := by
      funext n
      exact ih n
    show (adjT alpha l (t + 1) net).bind
      (fun n => close_loop alpha (s :: l) (t + 1) n) = _
    rw [hpt]
    rw [← Option.bind_assoc]
    rfl

lemma td_spec_eq_loop (alpha : ℚ) :
    ∀ (hist : List Step) (net : Net), hist ≠ [] →
      td_update_spec alpha net hist =
        (adjust_value alpha net (hist.getD (hist.length - 1) dStep).after 0).bind
          (fun n1 => if 2 ≤ hist.length
            then close_loop alpha hist (hist.length - 2) n1 else some n1) := by
  intro hist
  induction hist with
  | nil => intro net h; exact absurd rfl h
  | cons s tl ih =>
    intro net _
    cases tl with
    | nil =>
      show adjust_value alpha net s.after 0 = _
      simp
    | cons s' rest =>
      have hlen : (s :: s' :: rest).length = rest.length + 2 := by simp
      have hlast : (s :: s' :: rest).getD ((s :: s' :: rest).length - 1) dStep =
          (s' :: rest).getD ((s' :: rest).length - 1) dStep := by
        simp [List.getD_cons_succ]
      have hstep : td_update_spec alpha net (s :: s' :: rest) =
          (td_update_spec alpha net (s' :: rest)).bind
            (adjT alpha (s :: s' :: rest) 0) := by
        show (td_update_spec alpha net (s' :: rest)).bind
          (fun net1 => (estimate_value net1 s'.after).bind
            (fun e => adjust_value alpha net1 s.after ((s'.reward : ℚ) + e))) = _
        rfl
      rw [hstep, ih net (by simp), hlast.symm]
      rw [Option.bind_assoc]
      have harm : ∀ n1 : Net,
          ((if 2 ≤ (s' :: rest).length
            then close_loop alpha (s' :: rest) ((s' :: rest).length - 2) n1
            else some n1).bind (adjT alpha (s :: s' :: rest) 0)) =
          (if 2 ≤ (s :: s' :: rest).length
            then close_loop alpha (s :: s' :: rest) ((s :: s' :: rest).length - 2) n1
            else some n1) := by
        intro n1
        cases rest with
        | nil => simp [close_loop]
        | cons r2 rtl =>
          have h1 : 2 ≤ (s' :: r2 :: rtl).length := by simp
          have h2 : 2 ≤ (s :: s' :: r2 :: rtl).length := by simp
          rw [if_pos h1, if_pos h2]
          have : (s :: s' :: r2 :: rtl).length - 2 =
              ((s' :: r2 :: rtl).length - 2) + 1 := by simp
          rw [this, close_loop_cons]
      simp only [harm]

/-- C3: `close_episode` is a no-op unless the history is non-empty and the
learning rate is non-zero; when it runs it equals the spec's backward TD(0)
pass: final state adjusted toward 0, then each earlier entry `t` adjusted
toward `reward[t+1] + estimate_value(after[t+1])` on the already-updated
network, leaving everything but the net unchanged. -/
theorem player_close_episode_td (p : Player) :
    close_episode p =
      if p.history = [] ∨ p.alpha = 0 then some p
      else (td_update_spec p.alpha p.net p.history).map
        (fun n => { p with net := n }) := by
  by_cases h1 : p.history = []
  · simp [close_episode, h1]
  · by_cases h2 : p.alpha = 0
    · simp [close_episode, h1, h2]
    · rw [if_neg (by tauto)]
      unfold close_episode
      rw [if_neg h1, if_neg h2]
      rw [td_spec_eq_loop p.alpha p.history p.net h1]
      rw [Option.map_eq_bind, Option.bind_assoc]
      by_cases hl : 2 ≤ p.history.length
      · simp only [if_pos hl]
        rfl
      · simp only [if_neg hl]
        rfl

/-- The actions of action.h (not under src/): a directional slide carrying its
opcode, a tile placement, or the default (null) action. -/
inductive Action where
  | slide (op : Int)
  | place (pos : Nat) (tile : Nat)
  | null
deriving DecidableEq, Repr

/-- Modelled from the spec: action.h is not under src/.  Section 7 treats the
action the player returns when it selects no direction as the null/no-op
action; that is the default action or a slide whose opcode is not one of the
four directions (applying it changes no board). -/
def Action.isNoOp : Action → Bool
  | .slide op => decide (op < 0 ∨ 3 < op)
  | .place _ _ => false
  | .null => true

/-- The direction opcodes `{0, 1, 2, 3}` iterated by the players. -/
def dirs : List Int := [0, 1, 2, 3]

/-- The running candidate of `player::take_action`:
`best_op`, `best_reward`, `best_value`, `best_after`. -/
structure TAState where
  best_op : Int
  best_reward : Int
  best_value : ℚ
  best_after : Board
deriving DecidableEq, Repr

/-- Initial candidate of `player::take_action` (src/agent.h lines 88-91);
`best_after` is a default-constructed (empty) board. -/
def ta_init : TAState := ⟨-1, -1, -10000, List.replicate 16 0⟩

/-- One iteration of the direction loop of `player::take_action` (src/agent.h
lines 92-104).  `sl` is `board::slide` (board.h is not under src/): for an
opcode and a board it yields the move's reward (-1 when illegal) and the slid
board. -/
def ta_step (sl : Int → Board → Int × Board) (net : Net) (before : Board)
    (st : TAState) (op : Int) : Option TAState :=
  if (sl op before).1 = -1 then some st
  else do
    let value ← estimate_value net (sl op before).2
    if ((sl op before).1 : ℚ) + value > st.best_value + (st.best_reward : ℚ)
    then some ⟨op, (sl op before).1, value, (sl op before).2⟩
    else some st

/-- The whole direction loop of `player::take_action`. -/
def ta_run (sl : Int → Board → Int × Board) (net : Net) (before : Board)
    (ops : List Int) (st : TAState) : Option TAState :=
  ops.foldlM (ta_step sl net before) st

/-- `player::take_action` (src/agent.h lines 87-109): run the direction loop,
push `(best_reward, best_after)` when a direction was selected, and return
`action::slide(best_op)`. -/
def take_action (sl : Int → Board → Int × Board) (p : Player)
    (before : Board) : Option (Action × Player) := do
  let st ← ta_run sl p.net before dirs ta_init
  let p' := if st.best_op ≠ -1
    then { p with history := p.history ++ [⟨st.best_reward, st.best_after⟩] }
    else p
  pure (Action.slide st.best_op, p')

/-- The selection score `reward + estimate_value(after)` of a direction (the
estimate defaulted to 0 out of bounds; in bounds under `WFnet`). -/
def scoreOf (sl : Int → Board → Int × Board) (net : Net) (b : Board)
    (op : Int) : ℚ :=
  ((sl op b).1 : ℚ) + estD net (sl op b).2

/-- Loop invariant of the direction loop after processing `seen`: either the
candidate is still the initial sentinel and every legal processed direction
scored at most -10001, or the candidate is the first-seen maximal-scoring
legal processed direction with score above -10001. -/
def StOK (sl : Int → Board → Int × Board) (net : Net) (b : Board)
    (seen : List Int) (st : TAState) : Prop :=
  (st = ta_init ∧
    ∀ op ∈ seen, (sl op b).1 ≠ -1 → scoreOf sl net b op ≤ -10001) ∨
  ((sl st.best_op b).1 ≠ -1 ∧ st.best_op ∈ seen ∧
    st.best_reward = (sl st.best_op b).1 ∧
    st.best_after = (sl st.best_op b).2 ∧
    estimate_value net st.best_after = some st.best_value ∧
    -10001 < scoreOf sl net b st.best_op ∧
    (∀ op ∈ seen, (sl op b).1 ≠ -1 →
      scoreOf sl net b op ≤ scoreOf sl net b st.best_op) ∧
    (∀ op ∈ seen, (sl op b).1 ≠ -1 →
      scoreOf sl net b op = scoreOf sl net b st.best_op → st.best_op ≤ op))

lemma estimate_value_empty (b : Board) : estimate_value [] b = none := rfl

lemma adjust_value_empty (alpha : ℚ) (b : Board) (target : ℚ) :
    adjust_value alpha [] b target = none := rfl

lemma ta_run_nil (sl : Int → Board → Int × Board) (net : Net) (b : Board)
    (st : TAState) : ta_run sl net b [] st = some st := rfl

lemma ta_run_cons (sl : Int → Board → Int × Board) (net : Net) (b : Board)
    (o : Int) (ops : List Int) (st : TAState) :
    ta_run sl net b (o :: ops) st =
      (ta_step sl net b st o).bind (fun st1 => ta_run sl net b ops st1) := rfl

lemma ta_run_all_illegal (sl : Int → Board → Int × Board) (net : Net)
    (b : Board) (ops : List Int) (st : TAState)
    (h : ∀ o ∈ ops, (sl o b).1 = -1) : ta_run sl net b ops st = some st := by
  induction ops with
  | nil => rfl
  | cons o rest ih =>
    rw [ta_run_cons]
    have hstep : ta_step sl net b st o = some st := by
      unfold ta_step
      rw [if_pos (h o (List.mem_cons_self o rest))]
    rw [hstep]
    exact ih (fun o' ho' => h o' (List.mem_cons_of_mem o ho'))

lemma ta_run_empty_net (sl : Int → Board → Int × Board) (b : Board)
    (ops : List Int) (st : TAState) (h : ∃ o ∈ ops, (sl o b).1 ≠ -1) :
    ta_run sl [] b ops st = none := by
  induction ops generalizing st with
  | nil => obtain ⟨o, ho, _⟩ := h; exact absurd ho (List.not_mem_nil o)
  | cons o rest ih =>
    rw [ta_run_cons]
    by_cases hleg : (sl o b).1 = -1
    · have hstep : ta_step sl [] b st o = some st := by
        unfold ta_step
        rw [if_pos hleg]
      rw [hstep]
      obtain ⟨w, hw, hwl⟩ := h
      rcases List.mem_cons.mp hw with hwo | hwr
      · exact absurd (hwo ▸ hwl) (fun hc => hc hleg)
      · exact ih st ⟨w, hwr, hwl⟩
    · have hstep : ta_step sl [] b st o = none := by
        unfold ta_step
        rw [if_neg hleg]
        rfl
      rw [hstep]
      rfl

lemma ta_step_legal (sl : Int → Board → Int × Board) (net : Net) (b : Board)
    (st : TAState) (o : Int) (e : ℚ) (hleg : ¬((sl o b).1 = -1))
    (hest : estimate_value net (sl o b).2 = some e) :
    ta_step sl net b st o =
      if ((sl o b).1 : ℚ) + e > st.best_value + (st.best_reward : ℚ)
      then some ⟨o, (sl o b).1, e, (sl o b).2⟩ else some st := by
  unfold ta_step
  rw [if_neg hleg]
  simp only [hest, Option.bind_eq_bind, Option.some_bind]

lemma ta_step_inv (sl : Int → Board → Int × Board) (net : Net) (b : Board)
    (hWF : WFnet net) (seen : List Int) (st : TAState) (o : Int)
    (hb : boardOK (sl o b).2) (hOK : StOK sl net b seen st)
    (hprev : ∀ o' ∈ seen, o' < o) :
    ∃ st', ta_step sl net b st o = some st' ∧
      StOK sl net b (seen ++ [o]) st' := by
  by_cases hleg : (sl o b).1 = -1
  · refine ⟨st, by unfold ta_step; rw [if_pos hleg], ?_⟩
    rcases hOK with ⟨hinit, hall⟩ | ⟨h1, h2, h3, h4, h5, h6, h7, h8⟩
    · refine Or.inl ⟨hinit, fun op hop hl => ?_⟩
      rcases List.mem_append.mp hop with h | h
      · exact hall op h hl
      · rw [List.mem_singleton.mp h] at hl
        exact absurd hleg hl
    · refine Or.inr ⟨h1, List.mem_append_left _ h2, h3, h4, h5, h6, ?_, ?_⟩
      · intro op hop hl
        rcases List.mem_append.mp hop with h | h
        · exact h7 op h hl
        · rw [List.mem_singleton.mp h] at hl
          exact absurd hleg hl
      · intro op hop hl heq
        rcases List.mem_append.mp hop with h | h
        · exact h8 op h hl heq
        · rw [List.mem_singleton.mp h] at hl
          exact absurd hleg hl
  · have hest : estimate_value net (sl o b).2 = some (estD net (sl o b).2) :=
      estimate_value_some net (sl o b).2 hWF hb
    have hstep := ta_step_legal sl net b st o (estD net (sl o b).2) hleg hest
    have hso : scoreOf sl net b o = ((sl o b).1 : ℚ) + estD net (sl o b).2 := rfl
    rcases hOK with ⟨hinit, hall⟩ | ⟨h1, h2, h3, h4, h5, h6, h7, h8⟩
    · subst hinit
      have hval : ta_init.best_value + (ta_init.best_reward : ℚ) = -10001 := by
        norm_num [ta_init]
      by_cases hgt : ((sl o b).1 : ℚ) + estD net (sl o b).2 >
          ta_init.best_value + (ta_init.best_reward : ℚ)
      · refine ⟨⟨o, (sl o b).1, estD net (sl o b).2, (sl o b).2⟩,
          by rw [hstep, if_pos hgt], Or.inr ⟨hleg, ?_, rfl, rfl, hest, ?_, ?_, ?_⟩⟩
        · exact List.mem_append_right _ (List.mem_singleton_self o)
        · rw [hso]
          rw [hval] at hgt
          exact hgt
        · intro op hop hl
          rcases List.mem_append.mp hop with h | h
          · refine le_trans (hall op h hl) ?_
            rw [hso]
            rw [hval] at hgt
            exact le_of_lt hgt
          · rw [List.mem_singleton.mp h, hso]
        · intro op hop hl heq
          rcases List.mem_append.mp hop with h | h
          · exfalso
            have hle := hall op h hl
            rw [hval] at hgt
            rw [heq, hso] at hle
            exact absurd hgt (not_lt.mpr hle)
          · rw [List.mem_singleton.mp h]
      · refine ⟨ta_init, by rw [hstep, if_neg hgt], Or.inl ⟨rfl, ?_⟩⟩
        intro op hop hl
        rcases List.mem_append.mp hop with h | h
        · exact hall op h hl
        · rw [List.mem_singleton.mp h, hso]
          rw [hval] at hgt
          exact not_lt.mp hgt
    · have hDbest : estD net (sl st.best_op b).2 = st.best_value := by
        rw [← h4, estD, h5]
        rfl
      have hbb : st.best_value + (st.best_reward : ℚ) =
          scoreOf sl net b st.best_op := by
        show _ = ((sl st.best_op b).1 : ℚ) + estD net (sl st.best_op b).2
        rw [hDbest, ← h3]
        ring
      by_cases hgt : ((sl o b).1 : ℚ) + estD net (sl o b).2 >
          st.best_value + (st.best_reward : ℚ)
      · have hgt' : scoreOf sl net b st.best_op < scoreOf sl net b o := by
          rw [← hbb, hso]
          exact hgt
        refine ⟨⟨o, (sl o b).1, estD net (sl o b).2, (sl o b).2⟩,
          by rw [hstep, if_pos hgt], Or.inr ⟨hleg, ?_, rfl, rfl, hest, ?_, ?_, ?_⟩⟩
        · exact List.mem_append_right _ (List.mem_singleton_self o)
        · exact lt_trans h6 hgt'
        · intro op hop hl
          rcases List.mem_append.mp hop with h | h
          · exact le_trans (h7 op h hl) (le_of_lt hgt')
          · rw [List.mem_singleton.mp h]
        · intro op hop hl heq
          rcases List.mem_append.mp hop with h | h
          · exfalso
            have hle := h7 op h hl
            rw [heq] at hle
            exact absurd hgt' (not_lt.mpr hle)
          · rw [List.mem_singleton.mp h]
      · have hle' : scoreOf sl net b o ≤ scoreOf sl net b st.best_op := by
          rw [← hbb, hso]
          exact not_lt.mp hgt
        refine ⟨st, by rw [hstep, if_neg hgt],
          Or.inr ⟨h1, List.mem_append_left _ h2, h3, h4, h5, h6, ?_, ?_⟩⟩
        · intro op hop hl
          rcases List.mem_append.mp hop with h | h
          · exact h7 op h hl
          · rw [List.mem_singleton.mp h]
            exact hle'
        · intro op hop hl heq
          rcases List.mem_append.mp hop with h | h
          · exact h8 op h hl heq
          · rw [List.mem_singleton.mp h]
            exact le_of_lt (hprev st.best_op h2)

lemma ta_run_inv (sl : Int → Board → Int × Board) (net : Net) (b : Board)
    (hWF : WFnet net) :
    ∀ (ops seen : List Int) (st : TAState),
      (∀ o ∈ ops, boardOK (sl o b).2) → StOK sl net b seen st →
      (∀ o ∈ ops, ∀ o' ∈ seen, o' < o) → ops.Pairwise (· < ·) →
      ∃ st', ta_run sl net b ops st = some st' ∧
        StOK sl net b (seen ++ ops) st' := by
  intro ops
  induction ops with
  | nil =>
    intro seen st _ hOK _ _
    exact ⟨st, rfl, by simpa using hOK⟩
  | cons o rest ih =>
    intro seen st hb hOK hlt hsort
    obtain ⟨st1, hstep, hOK1⟩ := ta_step_inv sl net b hWF seen st o
      (hb o (List.mem_cons_self o rest)) hOK
      (fun o' ho' => hlt o (List.mem_cons_self o rest) o' ho')
    have hlt1 : ∀ o2 ∈ rest, ∀ o' ∈ seen ++ [o], o' < o2 := by
      intro o2 ho2 o' ho'
      rcases List.mem_append.mp ho' with h | h
      · exact hlt o2 (List.mem_cons_of_mem o ho2) o' h
      · rw [List.mem_singleton.mp h]
        exact (List.pairwise_cons.mp hsort).1 o2 ho2
    obtain ⟨st', hrun, hOK'⟩ := ih (seen ++ [o]) st1
      (fun o2 ho2 => hb o2 (List.mem_cons_of_mem o ho2)) hOK1 hlt1
      (List.pairwise_cons.mp hsort).2
    refine ⟨st', ?_, ?_⟩
    · rw [ta_run_cons, hstep]
      exact hrun
    · rw [List.append_assoc] at hOK'
      simpa using hOK'

lemma mem_dirs_ne_neg_one (op : Int) (h : op ∈ dirs) : op ≠ -1 := by
  rcases List.mem_cons.mp h with h | h
  · rw [h]; decide
  rcases List.mem_cons.mp h with h | h
  · rw [h]; decide
  rcases List.mem_cons.mp h with h | h
  · rw [h]; decide
  rcases List.mem_cons.mp h with h | h
  · rw [h]; decide
  · exact absurd h (List.not_mem_nil op)

lemma take_action_of_run (sl : Int → Board → Int × Board) (p : Player)
    (b : Board) (st : TAState)
    (hrun : ta_run sl p.net b dirs ta_init = some st) :
    take_action sl p b = some (Action.slide st.best_op,
      if st.best_op ≠ -1
      then { p with history := p.history ++ [⟨st.best_reward, st.best_after⟩] }
      else p) := by
  unfold take_action
  rw [hrun]
  rfl

lemma take_action_sound (sl : Int → Board → Int × Board) (p : Player)
    (b : Board) (hWF : WFnet p.net) (hb : ∀ op ∈ dirs, boardOK (sl op b).2) :
    ∃ st, ta_run sl p.net b dirs ta_init = some st ∧
      StOK sl p.net b dirs st := by
  obtain ⟨st, hrun, hOK⟩ := ta_run_inv sl p.net b hWF dirs [] ta_init hb
    (Or.inl ⟨rfl, fun op hop => absurd hop (List.not_mem_nil op)⟩)
    (fun _ _ o' ho' => absurd ho' (List.not_mem_nil o'))
    (by decide)
  rw [List.nil_append] at hOK
  exact ⟨st, hrun, hOK⟩

/-- C1 (amended): among the legal directions, provided at least one scores
above the -10001 initialization of `best_value + best_reward`, `take_action`
returns the slide of the direction maximizing
`reward + estimate_value(after)`, the strict greater-than comparison keeping
the first-seen (lowest-indexed) direction on ties, and pushes its
`(reward, after)` pair. -/
theorem player_take_action_argmax (sl : Int → Board → Int × Board)
    (p : Player) (b : Board) (hWF : WFnet p.net)
    (hb : ∀ op ∈ dirs, boardOK (sl op b).2)
    (hmax : ∃ op ∈ dirs, (sl op b).1 ≠ -1 ∧ -10001 < scoreOf sl p.net b op) :
    ∃ best, best ∈ dirs ∧ (sl best b).1 ≠ -1 ∧
      take_action sl p b = some (Action.slide best,
        { p with history := p.history ++ [⟨(sl best b).1, (sl best b).2⟩] }) ∧
      (∀ op ∈ dirs, (sl op b).1 ≠ -1 →
        scoreOf sl p.net b op ≤ scoreOf sl p.net b best) ∧
      (∀ op ∈ dirs, (sl op b).1 ≠ -1 →
        scoreOf sl p.net b op = scoreOf sl p.net b best → best ≤ op) := by
  obtain ⟨st, hrun, hOK⟩ := take_action_sound sl p b hWF hb
  rcases hOK with ⟨_, hall⟩ | ⟨h1, h2, h3, h4, h5, h6, h7, h8⟩
  · obtain ⟨op, hop, hlegal, hsc⟩ := hmax
    exact absurd hsc (not_lt.mpr (hall op hop hlegal))
  · have hne : st.best_op ≠ -1 := mem_dirs_ne_neg_one st.best_op h2
    refine ⟨st.best_op, h2, h1, ?_, h7, h8⟩
    rw [take_action_of_run sl p b st hrun, if_pos hne, h3, h4]

lemma close_episode_shape (p q : Player) (h : close_episode p = some q) :
    q.alpha = p.alpha ∧ q.history = p.history := by
  unfold close_episode at h
  split_ifs at h with h1 h2 h3
  · rw [Option.some.inj h.symm]
    exact ⟨rfl, rfl⟩
  · rw [Option.some.inj h.symm]
    exact ⟨rfl, rfl⟩
  · simp only [Option.bind_eq_bind] at h
    rcases Option.bind_eq_some.mp h with ⟨n1, hn1, h⟩
    rcases Option.bind_eq_some.mp h with ⟨n2, hn2, h⟩
    rw [Option.some.inj h.symm]
    exact ⟨rfl, rfl⟩
  · simp only [Option.bind_eq_bind] at h
    rcases Option.bind_eq_some.mp h with ⟨n1, hn1, h⟩
    rcases Option.bind_eq_some.mp h with ⟨n2, hn2, h⟩
    rw [Option.some.inj h.symm]
    exact ⟨rfl, rfl⟩

/-- C2 (amended): with no legal direction `take_action` returns the slide
with opcode -1 (a no-op action) and records nothing; when some legal direction
scores above the -10001 sentinel it returns the chosen direction's slide and
appends exactly the chosen `(reward, after)` pair; when legal directions exist
but all score at most -10001 it also returns the -1 slide and records
nothing. -/
theorem player_take_action_record (sl : Int → Board → Int × Board)
    (p : Player) (b : Board) (hWF : WFnet p.net)
    (hb : ∀ op ∈ dirs, boardOK (sl op b).2) :
    ((∀ op ∈ dirs, (sl op b).1 = -1) →
      take_action sl p b = some (Action.slide (-1), p) ∧
      (Action.slide (-1)).isNoOp = true) ∧
    ((∃ op ∈ dirs, (sl op b).1 ≠ -1 ∧ -10001 < scoreOf sl p.net b op) →
      ∃ best, best ∈ dirs ∧ (sl best b).1 ≠ -1 ∧
        take_action sl p b = some (Action.slide best,
          { p with history := p.history ++ [⟨(sl best b).1, (sl best b).2⟩] })) ∧
    (((∃ op ∈ dirs, (sl op b).1 ≠ -1) ∧
      (∀ op ∈ dirs, (sl op b).1 ≠ -1 → scoreOf sl p.net b op ≤ -10001)) →
      take_action sl p b = some (Action.slide (-1), p)) := by
  refine ⟨?_, ?_, ?_⟩
  · intro hall
    have hrun : ta_run sl p.net b dirs ta_init = some ta_init :=
      ta_run_all_illegal sl p.net b dirs ta_init hall
    constructor
    · rw [take_action_of_run sl p b ta_init hrun, if_neg (by decide)]
      rfl
    · decide
  · intro hmax
    obtain ⟨st, hrun, hOK⟩ := take_action_sound sl p b hWF hb
    rcases hOK with ⟨_, hall⟩ | ⟨h1, h2, h3, h4, h5, h6, h7, h8⟩
    · obtain ⟨op, hop, hlegal, hsc⟩ := hmax
      exact absurd hsc (not_lt.mpr (hall op hop hlegal))
    · have hne : st.best_op ≠ -1 := mem_dirs_ne_neg_one st.best_op h2
      refine ⟨st.best_op, h2, h1, ?_⟩
      rw [take_action_of_run sl p b st hrun, if_pos hne, h3, h4]
  · intro ⟨hex, hlow⟩
    obtain ⟨st, hrun, hOK⟩ := take_action_sound sl p b hWF hb
    rcases hOK with ⟨hinit, _⟩ | ⟨h1, h2, _, _, _, h6, _, _⟩
    · rw [take_action_of_run sl p b st hrun, hinit, if_neg (by decide)]
      rfl
    · exact absurd h6 (not_lt.mpr (hlow st.best_op h2 h1))

/-- C7 (amended): `open_episode` always leaves an empty history; a
`take_action` call appends at most one entry, and appends exactly one whenever
some legal direction scores above the -10001 sentinel; `close_episode` never
changes the history (only the net); the next `open_episode` clears it
again. -/
theorem player_history_lifecycle (sl : Int → Board → Int × Board)
    (p : Player) (b : Board) (hWF : WFnet p.net)
    (hb : ∀ op ∈ dirs, boardOK (sl op b).2) :
    (open_episode p).history = [] ∧
    (∀ a q, take_action sl p b = some (a, q) →
      q.history = p.history ∨ ∃ s, q.history = p.history ++ [s]) ∧
    ((∃ op ∈ dirs, (sl op b).1 ≠ -1 ∧ -10001 < scoreOf sl p.net b op) →
      ∃ a s q, take_action sl p b = some (a, q) ∧
        q.history = p.history ++ [s]) ∧
    (∀ q, close_episode p = some q → q.history = p.history) ∧
    (∀ q : Player, (open_episode q).history = []) := by
  refine ⟨rfl, ?_, ?_, ?_, fun q => rfl⟩
  · intro a q h
    cases hrun : ta_run sl p.net b dirs ta_init with
    | none =>
      unfold take_action at h
      rw [hrun] at h
      exact absurd h (by simp)
    | some st =>
      rw [take_action_of_run sl p b st hrun] at h
      have hq := congrArg Prod.snd (Option.some.inj h)
      dsimp only at hq
      by_cases hne : st.best_op ≠ -1
      · right
        refine ⟨⟨st.best_reward, st.best_after⟩, ?_⟩
        rw [← hq, if_pos hne]
      · left
        rw [← hq, if_neg hne]
  · intro hmax
    obtain ⟨st, hrun, hOK⟩ := take_action_sound sl p b hWF hb
    rcases hOK with ⟨_, hall⟩ | ⟨h1, h2, h3, h4, h5, h6, h7, h8⟩
    · obtain ⟨op, hop, hlegal, hsc⟩ := hmax
      exact absurd hsc (not_lt.mpr (hall op hop hlegal))
    · have hne : st.best_op ≠ -1 := mem_dirs_ne_neg_one st.best_op h2
      refine ⟨Action.slide st.best_op, ⟨st.best_reward, st.best_after⟩,
        { p with history := p.history ++ [⟨st.best_reward, st.best_after⟩] },
        ?_, rfl⟩
      rw [take_action_of_run sl p b st hrun, if_pos hne]
  · intro q hq
    exact (close_episode_shape p q hq).2

/-- Modelled from the spec: `board::fib` (board.h is not under src/), the
numeric-sequence value of a tile index in the 2584 variant
(1, 1, 2, 3, 5, 8, ...). -/
def fibv : Nat → Nat
  | 0 => 0
  | 1 => 1
  | 2 => 2
  | n + 3 => fibv (n + 2) + fibv (n + 1)

/-- Modelled from the spec: the external tile rule (sections 1, 6.4 and 9),
instantiated with the Fibonacci-adjacency rule of the 2584 variant that the
spec's concrete scenarios pin down for equal minimal tiles: two non-empty
tiles merge iff both are the minimal index 1 or their indices differ by
exactly 1. -/
def canMerge (a b : Nat) : Bool :=
  a ≠ 0 && b ≠ 0 && (a == 1 && b == 1 || a + 1 == b || b + 1 == a)

/-- Modelled from the spec: the merge pass over one compacted line; each
merge produces the next tile index and contributes that tile's numeric value
to the reward (section 4.1). -/
def mergeRow : List Nat → List Nat × Int
  | a :: b :: rest =>
    if canMerge a b then
      let r := mergeRow rest
      ((max a b + 1) :: r.1, r.2 + (fibv (max a b + 1) : Int))
    else
      let r := mergeRow (b :: rest)
      (a :: r.1, r.2)
  | l => (l, 0)

/-- Modelled from the spec: one line compacts toward the target edge, merges,
and is padded with empty cells (section 4.1). -/
def slideRowLeft (row : List Nat) : List Nat × Int :=
  let nz := row.filter (fun x => x ≠ 0)
  let m := mergeRow nz
  (m.1 ++ List.replicate (4 - m.1.length) 0, m.2)

/-- The four lines of the grid. -/
def boardRows (b : Board) : List (List Nat) :=
  [b.take 4, (b.drop 4).take 4, (b.drop 8).take 4, (b.drop 12).take 4]

/-- Slide every line toward the left edge; total reward is the sum over the
four independent lines. -/
def slideLeftB (b : Board) : Board × Int :=
  let rs := (boardRows b).map slideRowLeft
  ((rs.map Prod.fst).flatten, (rs.map Prod.snd).sum)

/-- Transpose of the 4x4 grid. -/
def transposeB (b : Board) : Board :=
  (List.range 16).map (fun i => bcell b ((i % 4) * 4 + i / 4))

/-- Horizontal mirror of the 4x4 grid. -/
def mirrorB (b : Board) : Board :=
  (List.range 16).map (fun i => bcell b ((i / 4) * 4 + (3 - i % 4)))

/-- Modelled from the spec: each of the four opcodes re-expressed as the
canonical left slide through grid transforms (section 4.1's rotation reuse). -/
def slideDir (op : Int) (b : Board) : Board × Int :=
  if op = 0 then
    let r := slideLeftB (transposeB b)
    (transposeB r.1, r.2)
  else if op = 1 then
    let r := slideLeftB (mirrorB b)
    (mirrorB r.1, r.2)
  else if op = 2 then
    let r := slideLeftB (mirrorB (transposeB b))
    (transposeB (mirrorB r.1), r.2)
  else slideLeftB b

/-- Modelled from the spec: `board::slide` (board.h is not under src/): apply
the directional compaction-and-merge pass; return the total reward when at
least one cell changed and the sentinel -1 (board unchanged) otherwise
(section 4.1). -/
def specSlide (op : Int) (b : Board) : Int × Board :=
  if op < 0 ∨ 3 < op then (-1, b)
  else
    let r := slideDir op b
    if r.1 = b then (-1, b) else (r.2, r.1)

/-- A board with one tile of index 1 in the corner: slides away from the top
and left edges are legal with reward 0 (the spec's first concrete scenario in
section 8). -/
def b0 : Board := [1, 0, 0, 0, 0, 0, 0, 0, 0, 0, 0, 0, 0, 0, 0, 0]

/-- A net whose entries are all -2000: every estimate is -16000, far below
the -10001 comparison sentinel of `take_action`. -/
def cNetNeg : Net := List.replicate 8 ⟨25 ^ 4, fun _ => -2000⟩

/-- A board holding a single out-of-range tile index 25 at cell 5: both
patterns containing cell 5 weight it by 25^2, so every feature index stays
within the tables. -/
def bigB : Board := [0, 0, 0, 0, 0, 25, 0, 0, 0, 0, 0, 0, 0, 0, 0, 0]

/-- C6: `extract_feature` is the base-25 hash of the four chosen cells, and
for boards whose tile indices stay below 25 the result is strictly below
25^4, the length `init_weights` gives every one of its 8 tables. -/
theorem player_extract_feature_bound (b : Board) (a c d e : Nat)
    (hb : boardOK b) :
    extract_feature b a c d e =
      bcell b a * 25 ^ 3 + bcell b c * 25 ^ 2 + bcell b d * 25 + bcell b e ∧
    extract_feature b a c d e < 25 ^ 4 ∧
    init_weights.length = 8 ∧ ∀ w ∈ init_weights, w.size = 25 ^ 4 := by
  refine ⟨by unfold extract_feature; ring_nf, extract_feature_lt b hb a c d e,
    rfl, by decide⟩

theorem player_extract_feature_bound_witness :
    boardOK b0 ∧
    (extract_feature b0 0 1 2 3 =
      bcell b0 0 * 25 ^ 3 + bcell b0 1 * 25 ^ 2 + bcell b0 2 * 25 + bcell b0 3 ∧
    extract_feature b0 0 1 2 3 < 25 ^ 4 ∧
    init_weights.length = 8 ∧ ∀ w ∈ init_weights, w.size = 25 ^ 4) :=
  ⟨by decide, player_extract_feature_bound b0 0 1 2 3 (by decide)⟩

/-- C10 (amended): with the 8 tables of 25^4 entries established by `init`
and a board whose tile indices stay below 25, every table access of
`estimate_value` and `adjust_value` is in bounds (sufficient, not necessary);
a player constructed with neither `init` nor `load` has an empty net, and any
`take_action` seeing a legal direction, or any learning `close_episode`,
reaches an out-of-bounds access. -/
theorem player_net_access_bounds (net : Net) (b : Board) :
    (WFnet net → boardOK b → (estimate_value net b).isSome ∧
      ∀ alpha target : ℚ, (adjust_value alpha net b target).isSome) ∧
    player_ctor_net false = [] ∧
    WFnet (player_ctor_net true) ∧
    (∀ sl : Int → Board → Int × Board, ∀ p : Player, p.net = [] →
      (∃ op ∈ dirs, (sl op b).1 ≠ -1) → take_action sl p b = none) ∧
    (∀ p : Player, p.net = [] → p.history ≠ [] → p.alpha ≠ 0 →
      close_episode p = none) := by
  refine ⟨?_, rfl, by constructor <;> decide, ?_, ?_⟩
  · intro hWF hb
    constructor
    · rw [estimate_value_some net b hWF hb]
      rfl
    · intro alpha target
      obtain ⟨net', hadj, _, _⟩ := adjust_value_chain alpha net b target hWF hb
      rw [hadj]
      rfl
  · intro sl p hp hex
    unfold take_action
    rw [hp, ta_run_empty_net sl b dirs ta_init hex]
    rfl
  · intro p hp hhist halpha
    unfold close_episode
    rw [if_neg hhist, if_neg halpha, hp]
    rfl

/-- C10 counterexample to the claim's "only when every tile index of the
board is below 25": the board with tile index 25 at cell 5 keeps every
feature index in bounds, so estimate and adjust succeed on the freshly
initialized tables. -/
theorem player_net_access_bounds_cex :
    bcell bigB 5 = 25 ∧
    (estimate_value init_weights bigB).isSome = true ∧
    (adjust_value 1 init_weights bigB 0).isSome = true := by
  refine ⟨rfl, ?_, ?_⟩ <;> decide

theorem player_net_access_bounds_witness :
    (estimate_value init_weights b0).isSome = true :=
  ((player_net_access_bounds init_weights b0).1 (by constructor <;> decide)
    (by decide)).1

/-- The scan of `rndenv::take_action` (src/agent.h lines 206-214) over the
shuffled positions: the first empty cell receives a tile, index 1 when the
uniform 0..9 draw `d` is non-zero and index 2 when it is zero
(`popup(engine) ? 1 : 2`); a full board yields the default action.  The
shuffle outcome is the parameter `perm`, the draw is `d`. -/
def rndenv_loop (after : Board) (d : Nat) : List Nat → Action
  | [] => Action.null
  | pos :: rest =>
    if bcell after pos ≠ 0 then rndenv_loop after d rest
    else Action.place pos (if d ≠ 0 then 1 else 2)

/-- `rndenv::take_action` with the engine's effects (the shuffle of the 16
positions and the biased draw) abstracted into parameters. -/
def rndenv_take_action (perm : List Nat) (d : Nat) (after : Board) : Action :=
  rndenv_loop after d perm

/-- The inner `for (int op2 : opcode)` loop of the `tree_search` policy
(src/agent.h lines 250-262): note the source keeps sliding the same `origin`
board and stores only `reward2` into `value`. -/
def ts_inner (sl : Int → Board → Int × Board) (r1 : Int) (op1 : Int) :
    List Int → Board → Int × Int → Int × Int
  | [], _, vi => vi
  | op2 :: rest, origin, vi =>
    if (sl op2 origin).1 = -1 then ts_inner sl r1 op1 rest (sl op2 origin).2 vi
    else if vi.1 ≤ r1 + (sl op2 origin).1 then
      ts_inner sl r1 op1 rest (sl op2 origin).2 ((sl op2 origin).1, op1)
    else ts_inner sl r1 op1 rest (sl op2 origin).2 vi

/-- The outer `for (int op1 : opcode)` loop of `tree_search`; `vi` carries
`(value, idx)`. -/
def ts_outer (sl : Int → Board → Int × Board) (before : Board)
    (ord2 : List Int) : List Int → Int × Int → Int × Int
  | [], vi => vi
  | op1 :: rest, vi =>
    if (sl op1 before).1 = -1 then ts_outer sl before ord2 rest vi
    else ts_outer sl before ord2 rest
      (ts_inner sl (sl op1 before).1 op1 ord2 (sl op1 before).2 vi)

/-- The `tree_search` branch of `dummy_player::take_action` (src/agent.h
lines 246-264, identically src/unnamed/part_001 lines 120-137), with the
shuffled `opcode` array as the parameter `ord`; starts from
`value = 0, idx = 0`. -/
def tree_search (sl : Int → Board → Int × Board) (ord : List Int)
    (before : Board) : Action :=
  Action.slide (ts_outer sl before ord ord (0, 0)).2

/-- Follows the claim's words: the sum of the two rewards of a legal first
move and a legal second move explored from the board after the first move. -/
def two_ply_sum (sl : Int → Board → Int × Board) (b : Board)
    (op1 op2 : Int) : Option Int :=
  if (sl op1 b).1 = -1 then none
  else if (sl op2 (sl op1 b).2).1 = -1 then none
  else some ((sl op1 b).1 + (sl op2 (sl op1 b).2).1)

/-- A board whose up and down slides merge the 7-8 pair in column 0 for
reward 55, whose right slide earns 0 now and 0 at the second ply, and whose
left slide is illegal. -/
def cb : Board := [7, 0, 0, 0, 8, 3, 0, 0, 0, 0, 0, 0, 0, 0, 0, 0]

/-- A shuffle outcome of the opcode array that visits the right slide last. -/
def ord0 : List Int := [0, 2, 3, 1]

lemma rndenv_loop_eq_find (after : Board) (d : Nat) (l : List Nat) :
    rndenv_loop after d l =
      match l.find? (fun pos => bcell after pos == 0) with
      | some pos => Action.place pos (if d ≠ 0 then 1 else 2)
      | none => Action.null := by
  induction l with
  | nil => rfl
  | cons pos rest ih =>
    by_cases h : bcell after pos = 0
    · rw [List.find?_cons_of_pos _ (by simp [h])]
      unfold rndenv_loop
      rw [if_neg (by simp [h])]
    · rw [List.find?_cons_of_neg _ (by simp [h])]
      unfold rndenv_loop
      rw [if_pos h]
      exact ih

lemma rndenv_loop_null_iff (after : Board) (d : Nat) (l : List Nat) :
    rndenv_loop after d l = Action.null ↔ ∀ pos ∈ l, bcell after pos ≠ 0 := by
  induction l with
  | nil => simp [rndenv_loop]
  | cons pos rest ih =>
    unfold rndenv_loop
    by_cases h : bcell after pos = 0
    · rw [if_neg (by simp [h])]
      simp [h]
    · rw [if_pos h]
      rw [ih]
      constructor
      · intro hall pos' hpos'
        rcases List.mem_cons.mp hpos' with h' | h'
        · rw [h']; exact h
        · exact hall pos' h'
      · intro hall pos' hpos'
        exact hall pos' (List.mem_cons_of_mem pos hpos')

/-- C8: with the shuffle outcome `perm` (a permutation of the 16 positions)
and the uniform 0..9 draw `d`, `rndenv::take_action` places at the first
empty cell in shuffled order a tile of index 1 when `d` is non-zero (9 of the
10 equally likely draws) and of index 2 when `d = 0` (1 of 10), and returns
the null action exactly when the board has no empty cell. -/
theorem rndenv_take_action_spec (perm : List Nat) (d : Nat) (after : Board)
    (hperm : perm.Perm (List.range 16)) (_hd : d < 10) :
    (rndenv_take_action perm d after =
      match perm.find? (fun pos => bcell after pos == 0) with
      | some pos => Action.place pos (if d ≠ 0 then 1 else 2)
      | none => Action.null) ∧
    (rndenv_take_action perm d after = Action.null ↔
      ∀ pos, pos < 16 → bcell after pos ≠ 0) ∧
    (∀ pos tile, rndenv_take_action perm d after = Action.place pos tile →
      bcell after pos = 0 ∧ tile = (if d ≠ 0 then 1 else 2)) ∧
    ((Finset.range 10).filter
      (fun k => (if k ≠ 0 then (1 : Nat) else 2) = 1)).card = 9 ∧
    ((Finset.range 10).filter
      (fun k => (if k ≠ 0 then (1 : Nat) else 2) = 2)).card = 1 := by
  refine ⟨rndenv_loop_eq_find after d perm, ?_, ?_, by decide, by decide⟩
  · rw [show rndenv_take_action perm d after = rndenv_loop after d perm from rfl,
      rndenv_loop_null_iff]
    constructor
    · intro hall pos hpos
      exact hall pos (hperm.mem_iff.mpr (List.mem_range.mpr hpos))
    · intro hall pos hpos
      exact hall pos (List.mem_range.mp (hperm.mem_iff.mp hpos))
  · intro pos tile hpl
    rw [show rndenv_take_action perm d after = rndenv_loop after d perm from rfl,
      rndenv_loop_eq_find after d perm] at hpl
    cases hfind : perm.find? (fun pos => bcell after pos == 0) with
    | none => rw [hfind] at hpl; exact absurd hpl (by simp)
    | some pos' =>
      rw [hfind] at hpl
      have hpred := List.find?_some hfind
      have hinj : pos' = pos ∧ (if d ≠ 0 then (1 : Nat) else 2) = tile := by
        cases hpl
        exact ⟨rfl, rfl⟩
      rcases hinj with ⟨hp, ht⟩
      rw [← hp, ← ht]
      refine ⟨?_, rfl⟩
      simpa using hpred

/-- C9: evaluated at the board `cb` and shuffle outcome `ord0`, the
`tree_search` policy returns the slide of direction 1, whose best two-move
reward sum is 0, while direction 0 attains the two-move reward sum 55: the
code does not track the direction maximizing the sum of the two rewards
(it stores only `reward2` in `value` and explores second moves on a
cumulatively mutated board). -/
theorem dummy_tree_search_not_sum_max :
    tree_search specSlide ord0 cb = Action.slide 1 ∧
    ord0.Perm dirs ∧
    two_ply_sum specSlide cb 0 2 = some 55 ∧
    (∀ op2 ∈ dirs, ∀ s : Int, two_ply_sum specSlide cb 1 op2 = some s →
      s < 55) := by
  refine ⟨by decide, by decide, by decide, by decide⟩

lemma estimate_cNetNeg_1 :
    estimate_value cNetNeg (specSlide 1 b0).2 = some (-16000) := by
  rw [estimate_value_eq cNetNeg (specSlide 1 b0).2 (by decide) (by decide)]
  rw [show lookup cNetNeg 0 (specSlide 1 b0).2 = -2000 from rfl,
    show lookup cNetNeg 1 (specSlide 1 b0).2 = -2000 from rfl,
    show lookup cNetNeg 2 (specSlide 1 b0).2 = -2000 from rfl,
    show lookup cNetNeg 3 (specSlide 1 b0).2 = -2000 from rfl,
    show lookup cNetNeg 4 (specSlide 1 b0).2 = -2000 from rfl,
    show lookup cNetNeg 5 (specSlide 1 b0).2 = -2000 from rfl,
    show lookup cNetNeg 6 (specSlide 1 b0).2 = -2000 from rfl,
    show lookup cNetNeg 7 (specSlide 1 b0).2 = -2000 from rfl]
  norm_num

lemma estimate_cNetNeg_2 :
    estimate_value cNetNeg (specSlide 2 b0).2 = some (-16000) := by
  rw [estimate_value_eq cNetNeg (specSlide 2 b0).2 (by decide) (by decide)]
  rw [show lookup cNetNeg 0 (specSlide 2 b0).2 = -2000 from rfl,
    show lookup cNetNeg 1 (specSlide 2 b0).2 = -2000 from rfl,
    show lookup cNetNeg 2 (specSlide 2 b0).2 = -2000 from rfl,
    show lookup cNetNeg 3 (specSlide 2 b0).2 = -2000 from rfl,
    show lookup cNetNeg 4 (specSlide 2 b0).2 = -2000 from rfl,
    show lookup cNetNeg 5 (specSlide 2 b0).2 = -2000 from rfl,
    show lookup cNetNeg 6 (specSlide 2 b0).2 = -2000 from rfl,
    show lookup cNetNeg 7 (specSlide 2 b0).2 = -2000 from rfl]
  norm_num

/-- Every direction of `b0` scores -16000 (or is illegal) under the -2000
tables, so the whole direction loop keeps the initial sentinel state. -/
lemma take_action_cNetNeg (p : Player) (hp : p.net = cNetNeg) :
    take_action specSlide p b0 = some (Action.slide (-1), p) := by
  have hs0 : ta_step specSlide cNetNeg b0 ta_init 0 = some ta_init := by
    unfold ta_step
    rw [if_pos (show (specSlide 0 b0).1 = -1 from rfl)]
  have hs1 : ta_step specSlide cNetNeg b0 ta_init 1 = some ta_init := by
    rw [ta_step_legal specSlide cNetNeg b0 ta_init 1 (-16000) (by decide)
      estimate_cNetNeg_1]
    rw [if_neg ?hc]
    case hc =>
      rw [show (specSlide 1 b0).1 = 0 from rfl]
      norm_num [ta_init]
  have hs2 : ta_step specSlide cNetNeg b0 ta_init 2 = some ta_init := by
    rw [ta_step_legal specSlide cNetNeg b0 ta_init 2 (-16000) (by decide)
      estimate_cNetNeg_2]
    rw [if_neg ?hc]
    case hc =>
      rw [show (specSlide 2 b0).1 = 0 from rfl]
      norm_num [ta_init]
  have hs3 : ta_step specSlide cNetNeg b0 ta_init 3 = some ta_init := by
    unfold ta_step
    rw [if_pos (show (specSlide 3 b0).1 = -1 from rfl)]
  have hrun : ta_run specSlide cNetNeg b0 dirs ta_init = some ta_init := by
    show ta_run specSlide cNetNeg b0 [0, 1, 2, 3] ta_init = some ta_init
    rw [ta_run_cons, hs0, Option.some_bind, ta_run_cons, hs1,
      Option.some_bind, ta_run_cons, hs2, Option.some_bind, ta_run_cons, hs3,
      Option.some_bind, ta_run_nil]
  have hrun' : ta_run specSlide p.net b0 dirs ta_init = some ta_init := by
    rw [hp]
    exact hrun
  rw [take_action_of_run specSlide p b0 ta_init hrun', if_neg (by decide)]
  rfl

/-- C1 counterexample: with every table entry -2000, directions 1 and 2 of
`b0` are legal yet `take_action` returns `slide(-1)` and records nothing — the
maximizing legal direction is not returned, because every candidate scores
below the -10001 initialization of `best_value + best_reward`. -/
theorem player_take_action_argmax_cex :
    (specSlide 1 b0).1 ≠ -1 ∧
    (take_action specSlide ⟨cNetNeg, 0, []⟩ b0).map
      (fun x => (x.1, x.2.history)) = some (Action.slide (-1), []) ∧
    (∀ op ∈ dirs, (specSlide op b0).1 ≠ -1 →
      Action.slide (-1) ≠ Action.slide op) := by
  refine ⟨by decide, ?_, by decide⟩
  rw [take_action_cNetNeg ⟨cNetNeg, 0, []⟩ rfl]
  rfl

lemma scoreOf_init_b0_1 : scoreOf specSlide init_weights b0 1 = 0 := by
  unfold scoreOf estD
  rw [estimate_value_eq init_weights (specSlide 1 b0).2 (by decide) (by decide)]
  rw [show lookup init_weights 0 (specSlide 1 b0).2 = 0 from rfl,
    show lookup init_weights 1 (specSlide 1 b0).2 = 0 from rfl,
    show lookup init_weights 2 (specSlide 1 b0).2 = 0 from rfl,
    show lookup init_weights 3 (specSlide 1 b0).2 = 0 from rfl,
    show lookup init_weights 4 (specSlide 1 b0).2 = 0 from rfl,
    show lookup init_weights 5 (specSlide 1 b0).2 = 0 from rfl,
    show lookup init_weights 6 (specSlide 1 b0).2 = 0 from rfl,
    show lookup init_weights 7 (specSlide 1 b0).2 = 0 from rfl,
    show (specSlide 1 b0).1 = 0 from rfl]
  norm_num

lemma hmax_init_b0 (net : Net) (hnet : net = init_weights) :
    ∃ op ∈ dirs, (specSlide op b0).1 ≠ -1 ∧
      -10001 < scoreOf specSlide net b0 op := by
  refine ⟨1, by decide, by decide, ?_⟩
  rw [hnet, scoreOf_init_b0_1]
  norm_num

theorem player_take_action_argmax_witness :
    ∃ best, best ∈ dirs ∧ (specSlide best b0).1 ≠ -1 ∧
      take_action specSlide ⟨init_weights, 0, []⟩ b0 = some (Action.slide best,
        { net := init_weights, alpha := 0, history := ([] : List Step) ++
          [⟨(specSlide best b0).1, (specSlide best b0).2⟩] }) ∧
      (∀ op ∈ dirs, (specSlide op b0).1 ≠ -1 →
        scoreOf specSlide init_weights b0 op ≤
          scoreOf specSlide init_weights b0 best) ∧
      (∀ op ∈ dirs, (specSlide op b0).1 ≠ -1 →
        scoreOf specSlide init_weights b0 op =
          scoreOf specSlide init_weights b0 best → best ≤ op) :=
  player_take_action_argmax specSlide ⟨init_weights, 0, []⟩ b0
    (by decide) (by decide) (hmax_init_b0 _ rfl)

/-- C2 counterexample: legal directions exist on `b0`, yet with the -2000
tables the "otherwise" branch of the claim fails: nothing is appended to the
history. -/
theorem player_take_action_record_cex :
    (∃ op ∈ dirs, (specSlide op b0).1 ≠ -1) ∧
    (take_action specSlide ⟨cNetNeg, 0, []⟩ b0).map
      (fun x => x.2.history.length) = some 0 := by
  refine ⟨by decide, ?_⟩
  rw [take_action_cNetNeg ⟨cNetNeg, 0, []⟩ rfl]
  rfl

theorem player_take_action_record_witness :
    ∃ best, best ∈ dirs ∧ (specSlide best b0).1 ≠ -1 ∧
      take_action specSlide ⟨init_weights, 1, []⟩ b0 = some (Action.slide best,
        { net := init_weights, alpha := 1, history := ([] : List Step) ++
          [⟨(specSlide best b0).1, (specSlide best b0).2⟩] }) :=
  ((player_take_action_record specSlide ⟨init_weights, 1, []⟩ b0
    (by decide) (by decide)).2.1) (hmax_init_b0 _ rfl)

/-- C7 counterexample: a `take_action` call that finds a legal direction but
(because of the -2000 tables) appends no history entry. -/
theorem player_history_lifecycle_cex :
    (specSlide 1 b0).1 ≠ -1 ∧
    (take_action specSlide ⟨cNetNeg, 0, [⟨5, b0⟩]⟩ b0).map
      (fun x => x.2.history) = some [⟨5, b0⟩] := by
  refine ⟨by decide, ?_⟩
  rw [take_action_cNetNeg ⟨cNetNeg, 0, [⟨5, b0⟩]⟩ rfl]
  rfl

theorem player_history_lifecycle_witness :
    ∃ a s q, take_action specSlide ⟨init_weights, 0, [⟨3, b0⟩]⟩ b0 =
      some (a, q) ∧ q.history = [⟨3, b0⟩] ++ [s] :=
  (player_history_lifecycle specSlide ⟨init_weights, 0, [⟨3, b0⟩]⟩ b0
    (by decide) (by decide)).2.2.1 (hmax_init_b0 _ rfl)

theorem player_adjust_value_td_update_witness :
    ∃ cur net', estimate_value init_weights b0 = some cur ∧
      adjust_value 1 init_weights b0 5 = some net' ∧ WFnet net' ∧
      ∀ i, i < 8 →
        (nread net' i (feat i b0) = (nread init_weights i (feat i b0)).map
          (fun v => v + 1 * (5 - cur))) ∧
        ∀ idx, idx ≠ feat i b0 →
          nread net' i idx = nread init_weights i idx :=
  player_adjust_value_td_update 1 init_weights b0 5 (by decide) (by decide)

theorem player_estimate_value_linear_witness :
    estimate_value init_weights b0 = some
      ((nread init_weights 0 (extract_feature b0 0 1 2 3)).getD 0 +
       (nread init_weights 1 (extract_feature b0 4 5 6 7)).getD 0 +
       (nread init_weights 2 (extract_feature b0 8 9 10 11)).getD 0 +
       (nread init_weights 3 (extract_feature b0 12 13 14 15)).getD 0 +
       (nread init_weights 4 (extract_feature b0 0 4 8 12)).getD 0 +
       (nread init_weights 5 (extract_feature b0 1 5 9 13)).getD 0 +
       (nread init_weights 6 (extract_feature b0 2 6 10 14)).getD 0 +
       (nread init_weights 7 (extract_feature b0 3 7 11 15)).getD 0) ∧
    ∀ i, i < 8 → ∀ idx, idx < 25 ^ 4 → ∀ d : ℚ, ∀ net' : Net,
      nadd init_weights i idx d = some net' → idx = feat i b0 →
      estimate_value net' b0 =
        some ((estimate_value init_weights b0).getD 0 + d) :=
  player_estimate_value_linear init_weights b0 (by decide) (by decide)

theorem rndenv_take_action_spec_witness :
    (rndenv_take_action (List.range 16) 5 b0 =
      match (List.range 16).find? (fun pos => bcell b0 pos == 0) with
      | some pos => Action.place pos (if 5 ≠ 0 then 1 else 2)
      | none => Action.null) ∧
    (rndenv_take_action (List.range 16) 5 b0 = Action.null ↔
      ∀ pos, pos < 16 → bcell b0 pos ≠ 0) ∧
    (∀ pos tile, rndenv_take_action (List.range 16) 5 b0 =
        Action.place pos tile →
      bcell b0 pos = 0 ∧ tile = (if 5 ≠ 0 then 1 else 2)) ∧
    ((Finset.range 10).filter
      (fun k => (if k ≠ 0 then (1 : Nat) else 2) = 1)).card = 9 ∧
    ((Finset.range 10).filter
      (fun k => (if k ≠ 0 then (1 : Nat) else 2) = 2)).card = 1 :=
  rndenv_take_action_spec (List.range 16) 5 b0 (List.Perm.refl _) (by decide)

end TCG
